import Mathlib

/-!
Shallow embedding of the chess engine core (`chess_game.py`): the board
representation with its mutation/query operators, the per-piece pseudo-legal
move generator, and the one-ply material-greedy agent.  Python tuples
`(color, ptype)` become `Piece`, square coordinates are `Int` (Python ints can
go negative in the generators), and the mutable 8×8 grid becomes a total
function `Fin 8 → Fin 8 → Option Piece` updated functionally.
-/

/-- Side colors, mirroring the `'w'`/`'b'` tags of the source. -/
inductive Color where
  | w
  | b
deriving DecidableEq

/-- Piece kinds, mirroring the one-letter type tags of the source. -/
inductive PieceType where
  | P
  | N
  | B
  | R
  | Q
  | K
deriving DecidableEq

/-- A piece is a `(color, type)` pair, as in the source tuples. -/
abbrev Piece := Color × PieceType

/-- A square is a `(row, column)` pair of Python ints. -/
abbrev Square := Int × Int

/-- A generated move is a `(src, dst)` pair of squares, as in the source. -/
abbrev Move := Square × Square

/-- `MATERIAL_VALUES` dict: `{'P':1,'N':3,'B':3,'R':5,'Q':9,'K':0}`. -/
def MATERIAL_VALUES : PieceType → Int
  | PieceType.P => 1
  | PieceType.N => 3
  | PieceType.B => 3
  | PieceType.R => 5
  | PieceType.Q => 9
  | PieceType.K => 0

/-- The 8×8 grid: each in-range square holds an optional piece. -/
def Board := Fin 8 → Fin 8 → Option Piece

instance : DecidableEq Board :=
  inferInstanceAs (DecidableEq (Fin 8 → Fin 8 → Option Piece))

/-- `Board.in_bounds`: `0 <= r < ROWS and 0 <= c < COLS`. -/
def Board.in_bounds (r c : Int) : Bool :=
  decide (0 ≤ r ∧ r < 8 ∧ 0 ≤ c ∧ c < 8)

/-- `Board.get`: `None` for out-of-range squares, the grid cell otherwise. -/
def Board.get (bd : Board) (r c : Int) : Option Piece :=
  if h : Board.in_bounds r c then
    bd ⟨r.toNat, by simp [Board.in_bounds] at h; omega⟩
       ⟨c.toNat, by simp [Board.in_bounds] at h; omega⟩
  else none

/-- `Board.set`: writes the cell when in range, no-op otherwise. -/
def Board.set (bd : Board) (r c : Int) (piece : Option Piece) : Board :=
  if Board.in_bounds r c then
    fun i j => if i.val = r.toNat ∧ j.val = c.toNat then piece else bd i j
  else bd

/-- Back-rank piece order `R N B Q K B N R` used by `Board.reset`. -/
def back_rank (c : Fin 8) : PieceType :=
  match c.val with
  | 0 => PieceType.R
  | 1 => PieceType.N
  | 2 => PieceType.B
  | 3 => PieceType.Q
  | 4 => PieceType.K
  | 5 => PieceType.B
  | 6 => PieceType.N
  | _ => PieceType.R

/-- `Board.reset`: black back rank on row 0, black pawns on row 1, empty
middle rows, white pawns on row 6, white back rank on row 7.  The source
method overwrites every row of the grid, so its result is independent of the
previous grid contents and is modelled as a constant board. -/
def Board.reset : Board := fun r c =>
  match r.val with
  | 0 => some (Color.b, back_rank c)
  | 1 => some (Color.b, PieceType.P)
  | 6 => some (Color.w, PieceType.P)
  | 7 => some (Color.w, back_rank c)
  | _ => none

/-- The board with every square empty (used to build test positions). -/
def emptyBoard : Board := fun _ _ => none

/-- The pawn-promotion adjustment inside `move_piece`: a pawn arriving on
row 0 as white or row 7 as black becomes the supplied promotion kind,
defaulting to queen; every other piece keeps its kind. -/
def promoted_kind (color : Color) (ptype : PieceType) (dr : Int)
    (promotion : Option PieceType) : PieceType :=
  if ptype = PieceType.P then
    if color = Color.w ∧ dr = 0 then promotion.getD PieceType.Q
    else if color = Color.b ∧ dr = 7 then promotion.getD PieceType.Q
    else ptype
  else ptype

/-- `Board.move_piece`: returns the board unchanged when the source square is
empty (`if not piece: return`); otherwise writes the (possibly promoted)
piece to the destination and then clears the source. -/
def Board.move_piece (bd : Board) (src dst : Square)
    (promotion : Option PieceType) : Board :=
  match bd.get src.1 src.2 with
  | none => bd
  | some piece =>
      (bd.set dst.1 dst.2
          (some (piece.1, promoted_kind piece.1 piece.2 dst.1 promotion))).set
        src.1 src.2 none

/-- `Board.clone`: `deepcopy` of the grid.  On immutable values a deep copy
is the value itself; the aliasing content of the source line is modelled by
`Store.cloneAt` below, which allocates a fresh cell holding this value. -/
def Board.clone (bd : Board) : Board := bd

/-- Row-major scan order of the grid, as `for r in range(ROWS): for c in
range(COLS)` over the in-range index pairs. -/
def squares : List (Fin 8 × Fin 8) :=
  (List.finRange 8).flatMap fun r => (List.finRange 8).map fun c => (r, c)

/-- `Board.material_score`: sum over the grid of each piece's material value,
added for pieces of `color` and subtracted for the opponent's. -/
def Board.material_score (bd : Board) (color : Color) : Int :=
  (squares.map fun rc =>
    match bd rc.1 rc.2 with
    | none => 0
    | some p => if p.1 = color then MATERIAL_VALUES p.2 else -MATERIAL_VALUES p.2).sum

/-- Number of occupied squares of a board (the "total piece count"). -/
def Board.piece_count (bd : Board) : Nat :=
  (squares.filter fun rc => (bd rc.1 rc.2).isSome).length

/-- Row-major scan order as Python int coordinates, used by the generator. -/
def row_major : List (Int × Int) :=
  (List.range 8).flatMap fun r => (List.range 8).map fun c => ((r : Int), (c : Int))

/-- `Rules._is_enemy`: occupied by the opposite color. -/
def Rules.is_enemy (piece : Option Piece) (color : Color) : Bool :=
  match piece with
  | none => false
  | some p => decide (p.1 ≠ color)

/-- `Rules._pawn_moves`: one step forward onto an empty square; additionally
two steps from the starting row when both squares ahead are empty; diagonal
captures onto enemy-occupied squares. -/
def Rules.pawn_moves (board : Board) (r c : Int) (piece : Piece) : List Move :=
  let color := piece.1
  let dir_forward : Int := if color = Color.w then -1 else 1
  let start_row : Int := if color = Color.w then 6 else 1
  let nr := r + dir_forward
  let forward : List Move :=
    if Board.in_bounds nr c ∧ board.get nr c = none then
      let nr2 := nr + dir_forward
      if r = start_row ∧ Board.in_bounds nr2 c ∧ board.get nr2 c = none then
        [((r, c), (nr, c)), ((r, c), (nr2, c))]
      else [((r, c), (nr, c))]
    else []
  let captures : List Move :=
    ([-1, 1] : List Int).flatMap fun dc =>
      let cr := r + dir_forward
      let cc := c + dc
      if Board.in_bounds cr cc then
        if Rules.is_enemy (board.get cr cc) color then [((r, c), (cr, cc))]
        else []
      else []
  forward ++ captures

/-- `Rules._knight_moves`: the 8 fixed offsets, destination legal when in
range and empty or enemy-occupied. -/
def Rules.knight_moves (board : Board) (r c : Int) (piece : Piece) : List Move :=
  let color := piece.1
  ([(-2, -1), (-2, 1), (2, -1), (2, 1),
    (-1, -2), (-1, 2), (1, -2), (1, 2)] : List (Int × Int)).flatMap fun d =>
    let nr := r + d.1
    let nc := c + d.2
    if Board.in_bounds nr nc then
      let target := board.get nr nc
      if target = none ∨ Rules.is_enemy target color then [((r, c), (nr, nc))]
      else []
    else []

/-- One ray of `Rules._sliding_moves` (the `while Board.in_bounds` loop).
The loop advances by a fixed nonzero offset with `|dr|, |dc| ≤ 1`, so one
coordinate changes monotonically by 1 per iteration and leaves `[0, 8)` after
at most 7 in-range steps; fuel `8` therefore never runs out and the recursion
always stops at the bounds check or at an occupied square, as in the source. -/
def Rules.slide_ray (board : Board) (color : Color) (src : Square)
    (dr dc : Int) : Nat → Int → Int → List Move
  | 0, _, _ => []
  | fuel + 1, nr, nc =>
    if Board.in_bounds nr nc then
      let target := board.get nr nc
      match target with
      | none =>
          (src, (nr, nc)) ::
            Rules.slide_ray board color src dr dc fuel (nr + dr) (nc + dc)
      | some _ =>
          if Rules.is_enemy target color then [(src, (nr, nc))] else []
    else []

/-- `Rules._sliding_moves`: ray-cast along each direction. -/
def Rules.sliding_moves (board : Board) (r c : Int) (piece : Piece)
    (directions : List (Int × Int)) : List Move :=
  directions.flatMap fun d =>
    Rules.slide_ray board piece.1 (r, c) d.1 d.2 8 (r + d.1) (c + d.2)

/-- `Rules._king_moves`: the 8 adjacent squares, legal when in range and empty
or enemy-occupied. -/
def Rules.king_moves (board : Board) (r c : Int) (piece : Piece) : List Move :=
  let color := piece.1
  ([-1, 0, 1] : List Int).flatMap fun dr =>
    ([-1, 0, 1] : List Int).flatMap fun dc =>
      if dr = 0 ∧ dc = 0 then []
      else
        let nr := r + dr
        let nc := c + dc
        if Board.in_bounds nr nc then
          let target := board.get nr nc
          if target = none ∨ Rules.is_enemy target color then
            [((r, c), (nr, nc))]
          else []
        else []

/-- `Rules.generate_legal_moves`: row-major scan; for each piece of the side
to move, dispatch on its kind with the source's direction lists. -/
def Rules.generate_legal_moves (board : Board) (turn_color : Color) : List Move :=
  row_major.flatMap fun rc =>
    match board.get rc.1 rc.2 with
    | none => []
    | some piece =>
      if piece.1 = turn_color then
        match piece.2 with
        | PieceType.P => Rules.pawn_moves board rc.1 rc.2 piece
        | PieceType.N => Rules.knight_moves board rc.1 rc.2 piece
        | PieceType.B =>
            Rules.sliding_moves board rc.1 rc.2 piece
              [(-1, -1), (-1, 1), (1, -1), (1, 1)]
        | PieceType.R =>
            Rules.sliding_moves board rc.1 rc.2 piece
              [(-1, 0), (1, 0), (0, -1), (0, 1)]
        | PieceType.Q =>
            Rules.sliding_moves board rc.1 rc.2 piece
              [(-1, -1), (-1, 1), (1, -1), (1, 1), (-1, 0), (1, 0), (0, -1), (0, 1)]
        | PieceType.K => Rules.king_moves board rc.1 rc.2 piece
      else []

/-- The evaluation of one candidate move in `SimpleAI.choose_move`: the
capture bonus is the material value of whatever occupies the destination
before the move; the move is then simulated on a clone and scored as
`material_score + 0.1 * capture_bonus`.  The score is represented as the
integer `10 * material_score + capture_bonus`, which carries exactly the
same ordering and equality as the source's float score: the float values are
`m + 0.1 * b` with `m` an integer and `b` in `{0, 1, 3, 5, 9}`, so two
scores are distinct exactly when their exact rationals differ by at least
`1/10`, far above double rounding error, and comparing `10 m + b` agrees
with comparing the floats. -/
def SimpleAI.eval_move (color : Color) (board : Board) (move : Move) : Int :=
  let captured := board.get move.2.1 move.2.2
  let capture_bonus : Int :=
    match captured with
    | some cp => MATERIAL_VALUES cp.2
    | none => 0
  let sim := board.clone
  let sim2 := sim.move_piece move.1 move.2 none
  10 * sim2.material_score color + capture_bonus

/-- One step of the best-score loop of `choose_move`.  The accumulator is
`(best_score, best_moves)`; `none` stands for the initial `-math.inf`, which
every finite score beats. -/
def SimpleAI.best_fold (color : Color) (board : Board)
    (acc : Option Int × List Move) (move : Move) : Option Int × List Move :=
  let eval_score := SimpleAI.eval_move color board move
  match acc.1 with
  | none => (some eval_score, [move])
  | some best =>
      if best < eval_score then (some eval_score, [move])
      else if eval_score = best then (some best, acc.2 ++ [move])
      else acc

/-- One step of the capture-preference loop of `choose_move`.  The accumulator
is `(capture_best, cap_best_val)` starting at `([], 0)`; non-capturing moves
are skipped, a strictly higher captured value restarts the list, an equal one
appends. -/
def SimpleAI.cap_fold (board : Board) (acc : List Move × Int)
    (mv : Move) : List Move × Int :=
  match board.get mv.2.1 mv.2.2 with
  | none => acc
  | some cap =>
      let val := MATERIAL_VALUES cap.2
      if acc.2 < val then ([mv], val)
      else if val = acc.2 then (acc.1 ++ [mv], acc.2)
      else acc

/-- The agent of the source holds a `Rules` instance (stateless) and a color. -/
structure SimpleAI where
  color : Color

/-- `SimpleAI.choose_move`: `None` when no move is generated; otherwise the
best-score loop followed by the capture-preference loop, and a uniformly
random choice from `capture_best` when nonempty, else from `best_moves`.
The random draw of `random.choice` is modelled by the extra argument `k`:
the drawn element is the `k % length`-th of the chosen list, so ranging over
all `k` covers every outcome the source can produce. -/
def SimpleAI.choose_move (ai : SimpleAI) (board : Board) (k : Nat) : Option Move :=
  let moves := Rules.generate_legal_moves board ai.color
  if moves = [] then none
  else
    let best_moves := (moves.foldl (SimpleAI.best_fold ai.color board) (none, [])).2
    let capture_best := (best_moves.foldl (SimpleAI.cap_fold board) ([], 0)).1
    if capture_best = [] then best_moves[k % best_moves.length]?
    else capture_best[k % capture_best.length]?

/-- A mutation of a board, covering the mutating operations of the source
(`set`, `move_piece`, `reset`). -/
inductive BoardOp where
  | write (r c : Int) (p : Option Piece)
  | move (src dst : Square) (promo : Option PieceType)
  | restart

/-- Apply one mutation to a board value. -/
def BoardOp.apply (bd : Board) : BoardOp → Board
  | BoardOp.write r c p => bd.set r c p
  | BoardOp.move src dst promo => bd.move_piece src dst promo
  | BoardOp.restart => Board.reset

/-- A heap of board objects: Python variables are indices into the heap, and
two variables alias exactly when they hold the same index.  This models the
object identity that `deepcopy` is about. -/
abbrev Store := List Board

/-- The board held by reference `i` (an absent reference reads as empty). -/
def Store.boardAt (s : Store) (i : Nat) : Board :=
  (s[i]?).getD emptyBoard

/-- Mutate the board object behind reference `i` in place. -/
def Store.mutateAt (s : Store) (i : Nat) (m : BoardOp) : Store :=
  s.set i (BoardOp.apply (s.boardAt i) m)

/-- `Board.clone` at the heap level: `deepcopy` allocates a fresh object with
an equal grid and returns its (new) reference `s.length`.  An aliasing
implementation would instead return the old reference `i`. -/
def Store.cloneAt (s : Store) (i : Nat) : Store × Nat :=
  (s ++ [(s.boardAt i).clone], s.length)

/-- Run a sequence of mutations, all against reference `i`. -/
def Store.mutateSeq (s : Store) (i : Nat) (ms : List BoardOp) : Store :=
  ms.foldl (fun t m => t.mutateAt i m) s

/-- Well-formedness of one generated move: source square as scanned, in-range
destination, and destination not occupied by an own piece. -/
def move_ok (bd : Board) (col : Color) (src : Square) (m : Move) : Prop :=
  m.1 = src ∧ Board.in_bounds m.2.1 m.2.2 = true ∧
    ∀ q, bd.get m.2.1 m.2.2 = some q → q.1 ≠ col

/-- A lone white rook at (3,3) on an otherwise empty board. -/
def rook_board : Board := emptyBoard.set 3 3 (some (Color.w, PieceType.R))

/-- A lone black knight at (1,0) on an otherwise empty board. -/
def knight_board : Board := emptyBoard.set 1 0 (some (Color.b, PieceType.N))

/-- A lone white pawn at (1,4), one step from promotion. -/
def wp_board : Board := emptyBoard.set 1 4 (some (Color.w, PieceType.P))

/-- A black pawn on its starting row 1 with the square ahead occupied. -/
def blocked_board : Board :=
  (emptyBoard.set 1 0 (some (Color.b, PieceType.P))).set 2 0
    (some (Color.w, PieceType.N))

/-- A lone white king at (0,0) on an otherwise empty board. -/
def king_board : Board := emptyBoard.set 0 0 (some (Color.w, PieceType.K))

theorem Board.in_bounds_iff {r c : Int} :
    Board.in_bounds r c = true ↔ 0 ≤ r ∧ r < 8 ∧ 0 ≤ c ∧ c < 8 := by
  simp [Board.in_bounds]

theorem Board.in_bounds_of_get_some {bd : Board} {r c : Int} {p : Piece}
    (h : bd.get r c = some p) : Board.in_bounds r c = true := by
  by_cases hb : Board.in_bounds r c
  · exact hb
  · simp [Board.get, hb] at h

theorem Board.get_set_self (bd : Board) (r c : Int) (p : Option Piece)
    (h : Board.in_bounds r c = true) : (bd.set r c p).get r c = p := by
  simp [Board.get, Board.set, h]

theorem Board.get_set_ne (bd : Board) (r c r' c' : Int) (p : Option Piece)
    (hne : ¬(r' = r ∧ c' = c)) : (bd.set r c p).get r' c' = bd.get r' c' := by
  by_cases h1 : Board.in_bounds r c
  · by_cases h2 : Board.in_bounds r' c'
    · have hb1 := Board.in_bounds_iff.mp h1
      have hb2 := Board.in_bounds_iff.mp h2
      simp only [Board.get, Board.set, h1, h2, if_true, dif_pos]
      rw [if_neg]
      intro hc
      exact hne ⟨by omega, by omega⟩
    · simp [Board.get, Board.set, h1, h2]
  · simp [Board.set, h1]

theorem Board.get_coe (bd : Board) (i j : Fin 8) :
    bd.get (i.val : Int) (j.val : Int) = bd i j := by
  have hb : Board.in_bounds (i.val : Int) (j.val : Int) = true := by
    simp [Board.in_bounds]
  simp only [Board.get, hb, dif_pos]
  congr 1

/-- C8: `get` on any out-of-range square returns absent, and `set` on any
out-of-range square leaves the board completely unchanged. -/
theorem claim_C8 (bd : Board) (r c : Int) (p : Option Piece)
    (h : ¬(0 ≤ r ∧ r < 8 ∧ 0 ≤ c ∧ c < 8)) :
    bd.get r c = none ∧ bd.set r c p = bd := by
  have hb : Board.in_bounds r c = false := by
    simp [Board.in_bounds]
    omega
  constructor
  · simp [Board.get, hb]
  · simp [Board.set, hb]

/-- Witness for C8 at the concrete out-of-range square (8, 0). -/
theorem claim_C8_witness :
    Board.reset.get 8 0 = none ∧
    Board.reset.set 8 0 (some (Color.w, PieceType.Q)) = Board.reset :=
  claim_C8 Board.reset 8 0 (some (Color.w, PieceType.Q)) (by decide)

theorem sum_map_neg_pointwise (l : List (Fin 8 × Fin 8))
    (f g : Fin 8 × Fin 8 → Int) (h : ∀ a, f a = -g a) :
    (l.map f).sum = -(l.map g).sum := by
  induction l with
  | nil => simp
  | cons a t ih => simp [h a, ih, neg_add, add_comm]

/-- C4: on every board (reachable or not) the material score of White is the
exact negation of the material score of Black, because each piece's value is
added for the queried side and subtracted for the other. -/
theorem claim_C4 (bd : Board) :
    bd.material_score Color.w = -(bd.material_score Color.b) := by
  unfold Board.material_score
  apply sum_map_neg_pointwise
  intro a
  cases hcell : bd a.1 a.2 with
  | none => simp
  | some p =>
    obtain ⟨pc, pt⟩ := p
    cases pc <;> simp

/-- C1 counterexample: with the in-range source square (3,3) empty and a
black knight on the in-range destination (1,0), `move_piece` leaves the
knight in place, whereas the claimed unconditional relocation ("for every
in-range from/to pair regardless of the board's contents": write the content
of `from` to `to`, then clear `from`) would leave the destination empty. -/
theorem claim_C1_counterexample :
    Board.in_bounds 3 3 = true ∧ Board.in_bounds 1 0 = true ∧
    knight_board.get 3 3 = none ∧
    (knight_board.move_piece (3, 3) (1, 0) none).get 1 0
      = some (Color.b, PieceType.N) ∧
    ((knight_board.set 1 0 (knight_board.get 3 3)).set 3 3 none).get 1 0
      = none := by
  refine ⟨by decide, by decide, by decide, ?_, by decide⟩
  decide

/-- C1 amended: when the from square is empty, `move_piece` is a no-op;
when it holds a piece, `move_piece` places that piece (adjusted by the
pawn-promotion rule) on the to square — overwriting whatever occupied it —
then clears the from square, and touches no other square. -/
theorem claim_C1 (bd : Board) (sr sc dr dc : Int) (promo : Option PieceType) :
    (bd.get sr sc = none → bd.move_piece (sr, sc) (dr, dc) promo = bd) ∧
    ∀ p, bd.get sr sc = some p →
      (bd.move_piece (sr, sc) (dr, dc) promo).get sr sc = none ∧
      (¬(dr = sr ∧ dc = sc) → Board.in_bounds dr dc = true →
        (bd.move_piece (sr, sc) (dr, dc) promo).get dr dc
          = some (p.1, promoted_kind p.1 p.2 dr promo)) ∧
      ∀ r c, ¬(r = sr ∧ c = sc) → ¬(r = dr ∧ c = dc) →
        (bd.move_piece (sr, sc) (dr, dc) promo).get r c = bd.get r c := by
  constructor
  · intro h
    simp [Board.move_piece, h]
  · intro p hp
    have hsrc : Board.in_bounds sr sc = true := Board.in_bounds_of_get_some hp
    have hmv : bd.move_piece (sr, sc) (dr, dc) promo
        = (bd.set dr dc (some (p.1, promoted_kind p.1 p.2 dr promo))).set
            sr sc none := by
      simp [Board.move_piece, hp]
    refine ⟨?_, ?_, ?_⟩
    · rw [hmv, Board.get_set_self _ _ _ _ hsrc]
    · intro hne hdst
      rw [hmv, Board.get_set_ne _ _ _ _ _ _ hne, Board.get_set_self _ _ _ _ hdst]
    · intro r c hs hd
      rw [hmv, Board.get_set_ne _ _ _ _ _ _ hs, Board.get_set_ne _ _ _ _ _ _ hd]

/-- Witness for the amended C1: the opening pawn push (6,0)→(4,0) moves the
pawn, leaves every other square (e.g. (7,0)) unchanged, and a move from the
empty in-range square (3,3) is a no-op. -/
theorem claim_C1_witness :
    (Board.reset.move_piece (6, 0) (4, 0) none).get 6 0 = none ∧
    (Board.reset.move_piece (6, 0) (4, 0) none).get 4 0
      = some (Color.w, PieceType.P) ∧
    (Board.reset.move_piece (6, 0) (4, 0) none).get 7 0
      = some (Color.w, PieceType.R) ∧
    Board.reset.move_piece (3, 3) (4, 3) none = Board.reset := by
  have h := (claim_C1 Board.reset 6 0 4 0 none).2 (Color.w, PieceType.P) (by decide)
  refine ⟨h.1, ?_, ?_, ?_⟩
  · exact h.2.1 (by decide) (by decide)
  · exact (h.2.2 7 0 (by decide) (by decide)).trans (by decide)
  · exact (claim_C1 Board.reset 3 3 4 3 none).1 (by decide)

/-- C3: a pawn move that arrives on the farthest rank for its color (row 0
for White, row 7 for Black) puts a piece of the same color there whose kind
is the supplied promotion kind, defaulting to Queen. -/
theorem claim_C3 (bd : Board) (sr sc dr dc : Int) (col : Color)
    (promo : Option PieceType)
    (hsrc : bd.get sr sc = some (col, PieceType.P))
    (hdst : Board.in_bounds dr dc = true)
    (hrank : dr = if col = Color.w then 0 else 7)
    (hne : ¬(dr = sr ∧ dc = sc)) :
    (bd.move_piece (sr, sc) (dr, dc) promo).get dr dc
      = some (col, promo.getD PieceType.Q) := by
  have h := ((claim_C1 bd sr sc dr dc promo).2 (col, PieceType.P) hsrc).2.1 hne hdst
  rw [h]
  cases col <;> simp_all [promoted_kind]

/-- Witness for C3: a White pawn at (1,4) moved to (0,4) with no promotion
kind becomes a White Queen at the destination. -/
theorem claim_C3_witness :
    (wp_board.move_piece (1, 4) (0, 4) none).get 0 4
      = some (Color.w, PieceType.Q) :=
  claim_C3 wp_board 1 4 0 4 Color.w none (by decide) (by decide) (by decide)
    (by decide)

theorem mem_squares (ij : Fin 8 × Fin 8) : ij ∈ squares := by
  unfold squares
  simp only [List.mem_flatMap, List.mem_map, List.mem_finRange]
  exact ⟨ij.1, trivial, ij.2, trivial, rfl⟩

theorem filter_length_le_of_imp (l : List (Fin 8 × Fin 8))
    (p q : Fin 8 × Fin 8 → Bool) (h : ∀ x, p x = true → q x = true) :
    (l.filter p).length ≤ (l.filter q).length := by
  induction l with
  | nil => simp
  | cons x t ih =>
    by_cases hp : p x = true
    · simp [List.filter_cons, hp, h x hp, ih]
    · simp only [List.filter_cons]
      rw [if_neg (by simp [hp])]
      by_cases hq : q x = true
      · rw [if_pos (by simp [hq])]
        simp
        omega
      · rw [if_neg (by simp [hq])]
        exact ih

theorem filter_length_lt (l : List (Fin 8 × Fin 8)) (p q : Fin 8 × Fin 8 → Bool)
    (a : Fin 8 × Fin 8) (ha : a ∈ l) (hpa : p a = false) (hqa : q a = true)
    (h : ∀ x, p x = true → q x = true) :
    (l.filter p).length < (l.filter q).length := by
  induction l with
  | nil => cases ha
  | cons x t ih =>
    rcases List.mem_cons.mp ha with hx | hx
    · subst hx
      simp only [List.filter_cons]
      rw [if_neg (by simp [hpa]), if_pos (by simp [hqa])]
      simp only [List.length_cons]
      exact Nat.lt_succ_of_le (filter_length_le_of_imp t p q h)
    · by_cases hp : p x = true
      · simp only [List.filter_cons]
        rw [if_pos (by simp [hp]), if_pos (by simp [h x hp])]
        simpa using ih hx
      · simp only [List.filter_cons]
        rw [if_neg (by simp [hp])]
        by_cases hq : q x = true
        · rw [if_pos (by simp [hq])]
          exact Nat.lt_succ_of_lt (ih hx)
        · rw [if_neg (by simp [hq])]
          exact ih hx

theorem piece_count_set_none_lt (bd : Board) (r c : Int) (p : Piece)
    (h : bd.get r c = some p) :
    (bd.set r c none).piece_count < bd.piece_count := by
  have hb : Board.in_bounds r c = true := Board.in_bounds_of_get_some h
  have hbb := Board.in_bounds_iff.mp hb
  unfold Board.piece_count
  apply filter_length_lt _ _ _ (⟨r.toNat, by omega⟩, ⟨c.toNat, by omega⟩)
  · exact mem_squares _
  · simp only [Board.set, hb, if_true]
    simp
  · simp only [Board.get, hb, dif_pos] at h
    simpa using congrArg Option.isSome h
  · intro x hx
    simp only [Board.set, hb, if_true] at hx
    by_cases hcell : x.1.val = r.toNat ∧ x.2.val = c.toNat
    · rw [if_pos hcell] at hx
      simp at hx
    · rwa [if_neg hcell] at hx

/-- C10: when the source square is in range and occupied but the destination
is out of range, `move_piece` clears the source and the out-of-range write is
a no-op, so the board equals the original with the source square emptied and
the total piece count strictly decreases (the piece vanishes). -/
theorem claim_C10 (bd : Board) (sr sc dr dc : Int) (p : Piece)
    (promo : Option PieceType) (hsrc : bd.get sr sc = some p)
    (hdst : ¬(0 ≤ dr ∧ dr < 8 ∧ 0 ≤ dc ∧ dc < 8)) :
    bd.move_piece (sr, sc) (dr, dc) promo = bd.set sr sc none ∧
    (bd.move_piece (sr, sc) (dr, dc) promo).piece_count < bd.piece_count := by
  have hb : Board.in_bounds dr dc = false := by
    simp [Board.in_bounds]
    omega
  have hmv : bd.move_piece (sr, sc) (dr, dc) promo = bd.set sr sc none := by
    simp only [Board.move_piece, hsrc]
    rw [show (bd.set dr dc (some (p.1, promoted_kind p.1 p.2 dr promo))) = bd
        from by simp [Board.set, hb]]
  exact ⟨hmv, hmv ▸ piece_count_set_none_lt bd sr sc p hsrc⟩

/-- Witness for C10: the white rook of `rook_board` moved from (3,3) to the
out-of-range square (3,8) vanishes, dropping the piece count from 1 to 0. -/
theorem claim_C10_witness :
    rook_board.move_piece (3, 3) (3, 8) none = rook_board.set 3 3 none ∧
    (rook_board.move_piece (3, 3) (3, 8) none).piece_count
      < rook_board.piece_count :=
  claim_C10 rook_board 3 3 3 8 (Color.w, PieceType.R) none (by decide) (by decide)

theorem Store.boardAt_set_ne (t : Store) (a b : Nat) (bd : Board)
    (h : a ≠ b) : Store.boardAt (t.set a bd) b = Store.boardAt t b := by
  unfold Store.boardAt
  rw [List.getElem?_set_ne h]

theorem Store.mutateSeq_boardAt_other (ms : List BoardOp) (t : Store)
    (a b : Nat) (h : a ≠ b) :
    Store.boardAt (Store.mutateSeq t a ms) b = Store.boardAt t b := by
  induction ms generalizing t with
  | nil => rfl
  | cons m rest ih =>
    show Store.boardAt (Store.mutateSeq (Store.mutateAt t a m) a rest) b = _
    rw [ih (Store.mutateAt t a m), Store.mutateAt,
      Store.boardAt_set_ne _ _ _ _ h]

theorem Store.cloneAt_boardAt_orig (s : Store) (i : Nat) (h : i < s.length) :
    Store.boardAt (Store.cloneAt s i).1 i = Store.boardAt s i := by
  unfold Store.cloneAt Store.boardAt
  rw [List.getElem?_append_left h]

theorem Store.cloneAt_boardAt_new (s : Store) (i : Nat) :
    Store.boardAt (Store.cloneAt s i).1 (Store.cloneAt s i).2
      = Store.boardAt s i := by
  unfold Store.cloneAt Store.boardAt Board.clone
  rw [List.getElem?_append_right (Nat.le_refl _)]
  simp

/-- C7: `clone` yields a fully independent board object.  In the heap model,
cloning the board behind reference `i` allocates a fresh reference; running
any sequence of mutations (`set` / `move_piece` / `reset`) against the clone
leaves every query (`get`, `material_score`) on the original unchanged, and
mutating the original leaves the queries on the clone unchanged. -/
theorem claim_C7 (s : Store) (i : Nat) (ms : List BoardOp) (r c : Int)
    (col : Color) (h : i < s.length) :
    (Store.boardAt
        (Store.mutateSeq (Store.cloneAt s i).1 (Store.cloneAt s i).2 ms) i).get r c
      = (Store.boardAt s i).get r c ∧
    (Store.boardAt
        (Store.mutateSeq (Store.cloneAt s i).1 (Store.cloneAt s i).2 ms)
        i).material_score col
      = (Store.boardAt s i).material_score col ∧
    (Store.boardAt (Store.mutateSeq (Store.cloneAt s i).1 i ms)
        (Store.cloneAt s i).2).get r c
      = (Store.boardAt s i).get r c ∧
    (Store.boardAt (Store.mutateSeq (Store.cloneAt s i).1 i ms)
        (Store.cloneAt s i).2).material_score col
      = (Store.boardAt s i).material_score col := by
  have hne : (Store.cloneAt s i).2 ≠ i := by
    show s.length ≠ i
    omega
  have h1 : Store.boardAt
      (Store.mutateSeq (Store.cloneAt s i).1 (Store.cloneAt s i).2 ms) i
      = Store.boardAt s i := by
    rw [Store.mutateSeq_boardAt_other _ _ _ _ hne,
      Store.cloneAt_boardAt_orig _ _ h]
  have h2 : Store.boardAt (Store.mutateSeq (Store.cloneAt s i).1 i ms)
      (Store.cloneAt s i).2 = Store.boardAt s i := by
    rw [Store.mutateSeq_boardAt_other _ _ _ _ (Ne.symm hne),
      Store.cloneAt_boardAt_new]
  exact ⟨by rw [h1], by rw [h1], by rw [h2], by rw [h2]⟩

/-- Witness for C7: cloning the single board of a one-element heap and
writing a queen onto the clone leaves the original's queries at (3,3) and its
material score unchanged, and vice versa. -/
theorem claim_C7_witness :
    (Store.boardAt
        (Store.mutateSeq (Store.cloneAt [Board.reset] 0).1
          (Store.cloneAt [Board.reset] 0).2
          [BoardOp.write 3 3 (some (Color.w, PieceType.Q))]) 0).get 3 3
      = (Store.boardAt [Board.reset] 0).get 3 3 ∧
    (Store.boardAt
        (Store.mutateSeq (Store.cloneAt [Board.reset] 0).1 0
          [BoardOp.write 3 3 (some (Color.w, PieceType.Q))])
        (Store.cloneAt [Board.reset] 0).2).material_score Color.w
      = (Store.boardAt [Board.reset] 0).material_score Color.w := by
  have h := claim_C7 [Board.reset] 0
    [BoardOp.write 3 3 (some (Color.w, PieceType.Q))] 3 3 Color.w (by decide)
  exact ⟨h.1, h.2.2.2⟩

set_option maxRecDepth 4096

/-- C5: on a board empty except for a rook at (3,3), the generator returns
exactly 14 moves for the rook's side, every move starts at (3,3), and the
destinations are exactly the squares that share the rook's row or column
(excluding (3,3) itself). -/
theorem claim_C5 :
    (Rules.generate_legal_moves rook_board Color.w).length = 14 ∧
    (∀ m ∈ Rules.generate_legal_moves rook_board Color.w,
      m.1 = ((3 : Int), (3 : Int))) ∧
    ((Rules.generate_legal_moves rook_board Color.w).map fun m => m.2).Perm
      (row_major.filter fun sq =>
        decide ((sq.1 = 3 ∨ sq.2 = 3) ∧ ¬(sq.1 = 3 ∧ sq.2 = 3))) := by
  refine ⟨by decide, by decide, by decide⟩

set_option maxHeartbeats 1600000 in
/-- C6: for any board and any pawn on its color's starting row (6 for White,
1 for Black, with forward direction d), the forward (file-preserving,
non-capturing) moves the generator emits for that pawn are: exactly the one-
and two-step pushes when both squares ahead are empty, and none at all when
the square directly ahead is occupied, whatever the two-step square holds. -/
theorem claim_C6 (bd : Board) (r c d : Int) (col : Color)
    (hr : r = if col = Color.w then 6 else 1)
    (hd : d = if col = Color.w then -1 else 1)
    (hp : bd.get r c = some (col, PieceType.P)) :
    (bd.get (r + d) c = none → bd.get (r + d + d) c = none →
      (Rules.pawn_moves bd r c (col, PieceType.P)).filter
          (fun m => decide (m.2.2 = m.1.2))
        = [((r, c), (r + d, c)), ((r, c), (r + d + d, c))]) ∧
    (bd.get (r + d) c ≠ none →
      (Rules.pawn_moves bd r c (col, PieceType.P)).filter
          (fun m => decide (m.2.2 = m.1.2)) = []) := by
  have hcb := Board.in_bounds_iff.mp (Board.in_bounds_of_get_some hp)
  have hne1 : ¬((c + -1 : Int) = c) := by omega
  have hne2 : ¬((c + 1 : Int) = c) := by omega
  cases col with
  | w =>
    simp only [if_pos rfl] at hr hd
    subst hr hd
    have hb1 : Board.in_bounds (6 + -1) c = true := by
      rw [Board.in_bounds_iff]
      omega
    have hb2 : Board.in_bounds (6 + -1 + -1) c = true := by
      rw [Board.in_bounds_iff]
      omega
    constructor
    · intro h1 h2
      simp only [Rules.pawn_moves, hb1, hb2, h1, h2, List.filter_append]
      simp only [List.flatMap_cons, List.flatMap_nil, List.append_nil]
      split_ifs <;>
        simp_all [List.filter_cons, List.filter_nil, hne1, hne2]
    · intro h1
      simp only [Rules.pawn_moves, List.filter_append]
      rw [if_neg (by rintro ⟨-, hg⟩; exact h1 hg)]
      simp only [List.flatMap_cons, List.flatMap_nil, List.append_nil,
        List.nil_append]
      split_ifs <;>
        simp_all [List.filter_cons, List.filter_nil, hne1, hne2]
  | b =>
    simp only [if_neg (show ¬(Color.b = Color.w) by decide)] at hr hd
    subst hr hd
    have hb1 : Board.in_bounds (1 + 1) c = true := by
      rw [Board.in_bounds_iff]
      omega
    have hb2 : Board.in_bounds (1 + 1 + 1) c = true := by
      rw [Board.in_bounds_iff]
      omega
    constructor
    · intro h1 h2
      simp only [Rules.pawn_moves, hb1, hb2, h1, h2, List.filter_append]
      simp only [List.flatMap_cons, List.flatMap_nil, List.append_nil]
      split_ifs <;>
        simp_all [List.filter_cons, List.filter_nil, hne1, hne2]
    · intro h1
      simp only [Rules.pawn_moves, List.filter_append]
      rw [if_neg (by rintro ⟨-, hg⟩; exact h1 hg)]
      simp only [List.flatMap_cons, List.flatMap_nil, List.append_nil,
        List.nil_append]
      split_ifs <;>
        simp_all [List.filter_cons, List.filter_nil, hne1, hne2]

/-- Witness for C6: the white pawn at (6,0) of the starting position has the
two forward pushes, and the blocked black pawn of `blocked_board` has none. -/
theorem claim_C6_witness :
    (Rules.pawn_moves Board.reset 6 0 (Color.w, PieceType.P)).filter
        (fun m => decide (m.2.2 = m.1.2))
      = [((6, 0), (6 + -1, 0)), ((6, 0), (6 + -1 + -1, 0))] ∧
    (Rules.pawn_moves blocked_board 1 0 (Color.b, PieceType.P)).filter
        (fun m => decide (m.2.2 = m.1.2)) = [] := by
  constructor
  · exact (claim_C6 Board.reset 6 0 (-1) Color.w (by decide) (by decide)
      (by decide)).1 (by decide) (by decide)
  · exact (claim_C6 blocked_board 1 0 1 Color.b (by decide) (by decide)
      (by decide)).2 (by decide)

theorem target_ne_own {bd : Board} {nr nc : Int} {col : Color}
    (ht : bd.get nr nc = none ∨ Rules.is_enemy (bd.get nr nc) col = true) :
    ∀ q, bd.get nr nc = some q → q.1 ≠ col := by
  intro q hq
  rcases ht with h | h
  · rw [hq] at h
    simp at h
  · rw [hq] at h
    simp [Rules.is_enemy] at h
    exact h

theorem pawn_moves_ok (bd : Board) (r c : Int) (piece : Piece) :
    ∀ m ∈ Rules.pawn_moves bd r c piece, move_ok bd piece.1 (r, c) m := by
  intro m hm
  simp only [Rules.pawn_moves, List.mem_append] at hm
  generalize hdir : (if piece.1 = Color.w then (-1 : Int) else 1) = d at hm
  generalize hst : (if piece.1 = Color.w then (6 : Int) else 1) = s at hm
  rcases hm with hf | hc
  · split at hf
    case isTrue hcond =>
      split at hf
      case isTrue hcond2 =>
        simp only [List.mem_cons, List.mem_singleton] at hf
        rcases hf with rfl | hf
        · exact ⟨rfl, hcond.1, target_ne_own (Or.inl hcond.2)⟩
        · rcases hf with rfl | hf
          · exact ⟨rfl, hcond2.2.1, target_ne_own (Or.inl hcond2.2.2)⟩
          · cases hf
      case isFalse =>
        simp only [List.mem_singleton] at hf
        subst hf
        exact ⟨rfl, hcond.1, target_ne_own (Or.inl hcond.2)⟩
    case isFalse => cases hf
  · simp only [List.mem_flatMap] at hc
    obtain ⟨dc, hdc, hm2⟩ := hc
    split at hm2
    case isTrue hbnd =>
      split at hm2
      case isTrue hen =>
        simp only [List.mem_singleton] at hm2
        subst hm2
        exact ⟨rfl, hbnd, target_ne_own (Or.inr hen)⟩
      case isFalse => cases hm2
    case isFalse => cases hm2

theorem knight_moves_ok (bd : Board) (r c : Int) (piece : Piece) :
    ∀ m ∈ Rules.knight_moves bd r c piece, move_ok bd piece.1 (r, c) m := by
  intro m hm
  simp only [Rules.knight_moves, List.mem_flatMap] at hm
  obtain ⟨d, hd, hm2⟩ := hm
  split at hm2
  next hbnd =>
    split at hm2
    next ht =>
      simp only [List.mem_singleton] at hm2
      subst hm2
      exact ⟨rfl, hbnd, target_ne_own ht⟩
    next => cases hm2
  next => cases hm2

theorem slide_ray_ok (bd : Board) (col : Color) (src : Square) (dr dc : Int) :
    ∀ (fuel : Nat) (nr nc : Int),
      ∀ m ∈ Rules.slide_ray bd col src dr dc fuel nr nc, move_ok bd col src m := by
  intro fuel
  induction fuel with
  | zero =>
    intro nr nc m hm
    cases hm
  | succ f ih =>
    intro nr nc m hm
    simp only [Rules.slide_ray] at hm
    split at hm
    next hbnd =>
      split at hm
      next hget =>
        rcases List.mem_cons.mp hm with rfl | hm2
        · exact ⟨rfl, hbnd, target_ne_own (Or.inl hget)⟩
        · exact ih _ _ m hm2
      next p hget =>
        split at hm
        next hen =>
          simp only [List.mem_singleton] at hm
          subst hm
          exact ⟨rfl, hbnd, target_ne_own (Or.inr hen)⟩
        next => cases hm
    next => cases hm

theorem sliding_moves_ok (bd : Board) (r c : Int) (piece : Piece)
    (dirs : List (Int × Int)) :
    ∀ m ∈ Rules.sliding_moves bd r c piece dirs, move_ok bd piece.1 (r, c) m := by
  intro m hm
  simp only [Rules.sliding_moves, List.mem_flatMap] at hm
  obtain ⟨d, hd, hm2⟩ := hm
  exact slide_ray_ok bd piece.1 (r, c) d.1 d.2 8 _ _ m hm2

theorem king_moves_ok (bd : Board) (r c : Int) (piece : Piece) :
    ∀ m ∈ Rules.king_moves bd r c piece, move_ok bd piece.1 (r, c) m := by
  intro m hm
  simp only [Rules.king_moves, List.mem_flatMap] at hm
  obtain ⟨dr, hdr, dc, hdc, hm2⟩ := hm
  split at hm2
  next => cases hm2
  next =>
    split at hm2
    next hbnd =>
      split at hm2
      next ht =>
        simp only [List.mem_singleton] at hm2
        subst hm2
        exact ⟨rfl, hbnd, target_ne_own ht⟩
      next => cases hm2
    next => cases hm2

/-- C9: every move the generator emits is well-formed: its source square is
in range and holds a piece of the generating side, its destination square is
in range, and the destination is empty or enemy-occupied, never occupied by
an own piece. -/
theorem claim_C9 (bd : Board) (col : Color) (m : Move)
    (h : m ∈ Rules.generate_legal_moves bd col) :
    Board.in_bounds m.1.1 m.1.2 = true ∧
    (∃ p, bd.get m.1.1 m.1.2 = some p ∧ p.1 = col) ∧
    Board.in_bounds m.2.1 m.2.2 = true ∧
    ∀ q, bd.get m.2.1 m.2.2 = some q → q.1 ≠ col := by
  unfold Rules.generate_legal_moves at h
  simp only [List.mem_flatMap] at h
  obtain ⟨rc, hrc, hm⟩ := h
  have main : move_ok bd col (rc.1, rc.2) m ∧
      ∃ p, bd.get rc.1 rc.2 = some p ∧ p.1 = col := by
    split at hm
    next => cases hm
    next piece hget =>
      split at hm
      next hcol =>
        refine ⟨?_, piece, hget, hcol⟩
        split at hm
        all_goals rw [← hcol]
        · exact pawn_moves_ok bd rc.1 rc.2 piece m hm
        · exact knight_moves_ok bd rc.1 rc.2 piece m hm
        · exact sliding_moves_ok bd rc.1 rc.2 piece _ m hm
        · exact sliding_moves_ok bd rc.1 rc.2 piece _ m hm
        · exact sliding_moves_ok bd rc.1 rc.2 piece _ m hm
        · exact king_moves_ok bd rc.1 rc.2 piece m hm
      next => cases hm
  obtain ⟨⟨hsrc, hdst, hq⟩, p, hget, hcol⟩ := main
  rw [hsrc]
  exact ⟨Board.in_bounds_of_get_some hget, ⟨p, hget, hcol⟩, hdst, hq⟩

/-- Witness for C9 at the opening knight move (0,1)→(2,0) of Black. -/
theorem claim_C9_witness :
    Board.in_bounds 0 1 = true ∧
    (∃ p, Board.reset.get 0 1 = some p ∧ p.1 = Color.b) ∧
    Board.in_bounds 2 0 = true ∧
    ∀ q, Board.reset.get 2 0 = some q → q.1 ≠ Color.b :=
  claim_C9 Board.reset Color.b ((0, 1), (2, 0)) (by decide)

theorem mem_of_getElem_opt {α : Type} {l : List α} {i : Nat} {a : α}
    (h : l[i]? = some a) : a ∈ l := by
  have h2 : i < l.length := by
    by_contra hh
    rw [List.getElem?_eq_none (by omega)] at h
    cases h
  rw [List.getElem?_eq_getElem h2] at h
  obtain rfl : l[i] = a := Option.some.inj h
  exact List.getElem_mem h2

theorem best_fold_sub (col : Color) (bd : Board) (l : List Move) :
    ∀ (acc : Option Int × List Move) (m : Move),
      m ∈ (l.foldl (SimpleAI.best_fold col bd) acc).2 → m ∈ acc.2 ∨ m ∈ l := by
  induction l with
  | nil => exact fun acc m h => Or.inl h
  | cons a t ih =>
    intro acc m h
    rcases ih (SimpleAI.best_fold col bd acc a) m h with h' | h'
    · obtain ⟨a1, a2⟩ := acc
      cases a1 with
      | none =>
        simp only [SimpleAI.best_fold, List.mem_singleton] at h'
        exact Or.inr (by rw [h']; exact List.mem_cons_self a t)
      | some best =>
        simp only [SimpleAI.best_fold] at h'
        split at h'
        · simp only [List.mem_singleton] at h'
          exact Or.inr (by rw [h']; exact List.mem_cons_self a t)
        · split at h'
          · rcases List.mem_append.mp h' with h2 | h2
            · exact Or.inl h2
            · simp only [List.mem_singleton] at h2
              exact Or.inr (by rw [h2]; exact List.mem_cons_self a t)
          · exact Or.inl h'
    · exact Or.inr (List.mem_cons_of_mem a h')

theorem best_fold_nonempty (col : Color) (bd : Board) (l : List Move) :
    ∀ (acc : Option Int × List Move), acc.2 ≠ [] → (∃ q, acc.1 = some q) →
      (l.foldl (SimpleAI.best_fold col bd) acc).2 ≠ [] := by
  induction l with
  | nil => exact fun acc h _ => h
  | cons a t ih =>
    intro acc hne hq
    obtain ⟨a1, a2⟩ := acc
    obtain ⟨q, hq⟩ := hq
    subst hq
    apply ih
    · simp only [SimpleAI.best_fold]
      split
      · simp
      · split
        · simp
        · exact hne
    · simp only [SimpleAI.best_fold]
      split
      · exact ⟨_, rfl⟩
      · split
        · exact ⟨_, rfl⟩
        · exact ⟨_, rfl⟩

theorem best_moves_nonempty (col : Color) (bd : Board) (a : Move) (t : List Move) :
    (((a :: t).foldl (SimpleAI.best_fold col bd) (none, []))).2 ≠ [] := by
  show ((t.foldl (SimpleAI.best_fold col bd)
    (SimpleAI.best_fold col bd (none, []) a))).2 ≠ []
  exact best_fold_nonempty col bd t _ (by simp [SimpleAI.best_fold]) ⟨_, rfl⟩

theorem cap_fold_sub (bd : Board) (l : List Move) :
    ∀ (acc : List Move × Int) (m : Move),
      m ∈ (l.foldl (SimpleAI.cap_fold bd) acc).1 → m ∈ acc.1 ∨ m ∈ l := by
  induction l with
  | nil => exact fun acc m h => Or.inl h
  | cons a t ih =>
    intro acc m h
    rcases ih (SimpleAI.cap_fold bd acc a) m h with h' | h'
    · simp only [SimpleAI.cap_fold] at h'
      split at h'
      · exact Or.inl h'
      · split at h'
        · simp only [List.mem_singleton] at h'
          exact Or.inr (by rw [h']; exact List.mem_cons_self a t)
        · split at h'
          · rcases List.mem_append.mp h' with h2 | h2
            · exact Or.inl h2
            · simp only [List.mem_singleton] at h2
              exact Or.inr (by rw [h2]; exact List.mem_cons_self a t)
          · exact Or.inl h'
    · exact Or.inr (List.mem_cons_of_mem a h')

/-- C2: `choose_move` returns `none` exactly when the generator yields no
move for the board and side, and any move it returns — for every outcome `k`
of the internal random draw — is an element of the generator's output for
the same board and side. -/
theorem claim_C2 (ai : SimpleAI) (bd : Board) (k : Nat) :
    (SimpleAI.choose_move ai bd k = none ↔
      Rules.generate_legal_moves bd ai.color = []) ∧
    ∀ m, SimpleAI.choose_move ai bd k = some m →
      m ∈ Rules.generate_legal_moves bd ai.color := by
  by_cases hmv : Rules.generate_legal_moves bd ai.color = []
  · constructor
    · simp [SimpleAI.choose_move, hmv]
    · intro m hm
      simp [SimpleAI.choose_move, hmv] at hm
  · have hsub : ∀ m ∈ ((Rules.generate_legal_moves bd ai.color).foldl
        (SimpleAI.best_fold ai.color bd) (none, [])).2,
        m ∈ Rules.generate_legal_moves bd ai.color := by
      intro m hm
      rcases best_fold_sub ai.color bd _ _ m hm with h | h
      · cases h
      · exact h
    have hbm_ne : ((Rules.generate_legal_moves bd ai.color).foldl
        (SimpleAI.best_fold ai.color bd) (none, [])).2 ≠ [] := by
      obtain ⟨a, t, hat⟩ : ∃ a t, Rules.generate_legal_moves bd ai.color = a :: t := by
        cases hh : Rules.generate_legal_moves bd ai.color with
        | nil => exact absurd hh hmv
        | cons a t => exact ⟨a, t, rfl⟩
      rw [hat]
      exact best_moves_nonempty ai.color bd a t
    have hch : SimpleAI.choose_move ai bd k =
        if (((Rules.generate_legal_moves bd ai.color).foldl
            (SimpleAI.best_fold ai.color bd) (none, [])).2.foldl
            (SimpleAI.cap_fold bd) ([], 0)).1 = [] then
          (((Rules.generate_legal_moves bd ai.color).foldl
            (SimpleAI.best_fold ai.color bd) (none, [])).2)[k %
            (((Rules.generate_legal_moves bd ai.color).foldl
            (SimpleAI.best_fold ai.color bd) (none, [])).2).length]?
        else
          ((((Rules.generate_legal_moves bd ai.color).foldl
            (SimpleAI.best_fold ai.color bd) (none, [])).2.foldl
            (SimpleAI.cap_fold bd) ([], 0)).1)[k %
            ((((Rules.generate_legal_moves bd ai.color).foldl
            (SimpleAI.best_fold ai.color bd) (none, [])).2.foldl
            (SimpleAI.cap_fold bd) ([], 0)).1).length]? := by
      simp only [SimpleAI.choose_move, if_neg hmv]
    constructor
    · constructor
      · intro hn
        rw [hch] at hn
        split at hn
        · have hlt : k % (((Rules.generate_legal_moves bd ai.color).foldl
              (SimpleAI.best_fold ai.color bd) (none, [])).2).length <
              (((Rules.generate_legal_moves bd ai.color).foldl
              (SimpleAI.best_fold ai.color bd) (none, [])).2).length :=
            Nat.mod_lt _ (List.length_pos.mpr hbm_ne)
          rw [List.getElem?_eq_getElem hlt] at hn
          cases hn
        · next hcb =>
          have hlt : k % ((((Rules.generate_legal_moves bd ai.color).foldl
              (SimpleAI.best_fold ai.color bd) (none, [])).2.foldl
              (SimpleAI.cap_fold bd) ([], 0)).1).length <
              ((((Rules.generate_legal_moves bd ai.color).foldl
              (SimpleAI.best_fold ai.color bd) (none, [])).2.foldl
              (SimpleAI.cap_fold bd) ([], 0)).1).length :=
            Nat.mod_lt _ (List.length_pos.mpr hcb)
          rw [List.getElem?_eq_getElem hlt] at hn
          cases hn
      · intro h
        exact absurd h hmv
    · intro m hm
      rw [hch] at hm
      split at hm
      · exact hsub m (mem_of_getElem_opt hm)
      · have hmc := mem_of_getElem_opt hm
        rcases cap_fold_sub bd _ _ m hmc with h | h
        · cases h
        · exact hsub m h

/-- Witness for C2: on the lone-king board the agent picks the first king
move (0,0)→(0,1) for draw 0, and that move is indeed generated. -/
theorem claim_C2_witness :
    SimpleAI.choose_move ⟨Color.w⟩ king_board 0 = some ((0, 0), (0, 1)) ∧
    ((0, 0), (0, 1)) ∈ Rules.generate_legal_moves king_board Color.w := by
  constructor
  · decide
  · exact (claim_C2 ⟨Color.w⟩ king_board 0).2 ((0, 0), (0, 1)) (by decide)
